import Mathlib

/-
  Shallow embedding of the name-resolution pipeline in main.py
  (ijf-automation).  Python strings are modelled as lists of characters
  (`Str`); Python floats used for match scores are modelled as exact
  rationals; the HTTP session is modelled as a function from request URL
  to an optional (status code, parsed document) pair, `none` standing for
  a transport exception inside http_get.
-/

abbrev Str := List Char

/-- Whitespace class of Python's `\s` (ASCII range), also used by
`str.strip()`. -/
def isSpaceChar (c : Char) : Bool :=
  c == ' ' || c == '\t' || c == '\n' || c == '\r' || c == '\x0b' || c == '\x0c'

/-- Word splitter underlying `normalize_spaces`: `cur` is the reversed
current word being accumulated. -/
def wordsAux : Str → Str → List Str
  | [], cur => if cur = [] then [] else [cur.reverse]
  | c :: cs, cur =>
    if isSpaceChar c then
      if cur = [] then wordsAux cs [] else cur.reverse :: wordsAux cs []
    else wordsAux cs (c :: cur)

def words (s : Str) : List Str := wordsAux s []

/-- Join words with single spaces. -/
def joinSp : List Str → Str
  | [] => []
  | [w] => w
  | w :: ws => w ++ ' ' :: joinSp ws

/-- `normalize_spaces(s)` = `re.sub(r"\s+", " ", s).strip()`: collapse
every whitespace run to one space and trim the ends, i.e. the single-space
join of the whitespace-separated words. -/
def normalize_spaces (s : Str) : Str := joinSp (words s)

/-- `str.strip()`. -/
def pyStrip (s : Str) : Str :=
  ((s.dropWhile (fun c => isSpaceChar c)).reverse.dropWhile (fun c => isSpaceChar c)).reverse

def pyLower (s : Str) : Str := s.map Char.toLower

def pyUpper (s : Str) : Str := s.map Char.toUpper

/-- `raw.replace(",", " ")`. -/
def replaceComma (s : Str) : Str := s.map (fun c => if c = ',' then ' ' else c)

/-- `"," in raw`. -/
def containsComma (s : Str) : Bool := s.any (fun c => c == ',')

/-- `raw.split(",")` (keeps empty segments, always at least one part). -/
def splitCommaAux : Str → Str → List Str
  | [], cur => [cur.reverse]
  | c :: cs, cur =>
    if c = ',' then cur.reverse :: splitCommaAux cs [] else splitCommaAux cs (c :: cur)

def splitComma (s : Str) : List Str := splitCommaAux s []

/-- `s.split(" ")` (single-space separator). -/
def splitSpAux : Str → Str → List Str
  | [], cur => [cur.reverse]
  | c :: cs, cur =>
    if c = ' ' then cur.reverse :: splitSpAux cs [] else splitSpAux cs (c :: cur)

def splitSp (s : Str) : List Str := splitSpAux s []

/-- The final dedup loop of build_queries_from_name:
`for q in qs: if q and q not in seen: out.append(q); seen.add(q)`. -/
def dedupKeep : List Str → List Str → List Str
  | [], _ => []
  | q :: qs, seen =>
    if q ≠ [] ∧ q ∉ seen then q :: dedupKeep qs (q :: seen) else dedupKeep qs seen

/-- `build_queries_from_name(raw)` from main.py: normalize, drop commas for
the primary query, and when a comma is present also try the swapped
`parts[1] + " " + parts[0]` variant; finally drop empty and duplicate
entries. -/
def build_queries_from_name (raw0 : Str) : List Str :=
  let raw := normalize_spaces raw0
  if raw = [] then []
  else
    let no_comma := normalize_spaces (replaceComma raw)
    let qs := [no_comma]
    let qs :=
      if containsComma raw then
        match (splitComma raw).map normalize_spaces with
        | p0 :: p1 :: _ =>
          if p0 ≠ [] ∧ p1 ≠ [] then
            let swapped := normalize_spaces (p1 ++ ' ' :: p0)
            if swapped ≠ [] ∧ swapped ∉ qs then qs ++ [swapped] else qs
          else qs
        | _ => qs
      else qs
    dedupKeep qs []

/-- Character class kept by token_set's `re.sub(r"[^a-z0-9\s\-']", " ", s)`
(applied after lower-casing). -/
def tokenKeep (c : Char) : Bool :=
  ('a' ≤ c && c ≤ 'z') || ('0' ≤ c && c ≤ '9') || isSpaceChar c || c == '-' || c == '\''

/-- `token_set(s)` from main.py; the Python set is modelled as a
duplicate-free list. -/
def token_set (s : Str) : List Str :=
  let s1 := pyLower (normalize_spaces s)
  let s2 := s1.map (fun c => if tokenKeep c then c else ' ')
  let s3 := normalize_spaces s2
  if s3 = [] then [] else (splitSp s3).dedup

/-- `name_match_score(query, page_name)`: token-set Jaccard similarity,
0 when either token set is empty. -/
def name_match_score (query page_name : Str) : ℚ :=
  let a := token_set query
  let b := token_set page_name
  if a = [] ∨ b = [] then 0
  else
    let inter := (a.filter (fun t => t ∈ b)).length
    let union := (a ∪ b).length
    if union = 0 then 0 else (inter : ℚ) / (union : ℚ)

/-- `col_to_index(col)`: spreadsheet letters to 1-based index
(`A -> 1, Z -> 26, AA -> 27`), computed over Python ints. -/
def col_to_index (col : Str) : Int :=
  (pyUpper col).foldl (fun n ch => n * 26 + ((ch.toNat : Int) - ('A'.toNat : Int) + 1)) 0

/-
  HTTP / HTML collaborator model.  A fetched page is modelled by the parts
  of the parsed document that main.py reads: the href/text pairs of the
  `a[href]` anchors, the text of the first h1 (as produced by
  `get_text(" ", strip=True)`), and the title string.
-/

structure Doc where
  anchors : List (Str × Str)
  h1 : Option Str
  title : Option Str

/-- `http_get`: request URL to optional (status_code, parsed document);
`none` models a raised transport exception. -/
abbrev Fetch := Str → Option (Nat × Doc)

def IJF_BASE : Str := ("https://www.ijf.org").data

def IJF_JUDOKA_STR : Str := ("https://www.ijf.org/judoka/").data

def JUDOINSIDE_BASE : Str := ("https://judoinside.com").data

def isDigitChar (c : Char) : Bool := '0' ≤ c && c ≤ '9'

/-- `urllib.parse.quote_plus` restricted to single-byte characters. -/
def quoteSafe (c : Char) : Bool :=
  ('A' ≤ c && c ≤ 'Z') || ('a' ≤ c && c ≤ 'z') || ('0' ≤ c && c ≤ '9') ||
    c == '_' || c == '.' || c == '-' || c == '~'

def hexDigitChar (n : Nat) : Char :=
  if n < 10 then Char.ofNat ('0'.toNat + n) else Char.ofNat ('A'.toNat + (n - 10))

def quote_plus (s : Str) : Str :=
  (s.map (fun c =>
    if c = ' ' then ['+']
    else if quoteSafe c then [c]
    else ['%', hexDigitChar (c.toNat / 16 % 16), hexDigitChar (c.toNat % 16)])).flatten

/-- Strip a literal pattern from the front of `s`; `some rest` on success. -/
def stripLit : Str → Str → Option Str
  | [], s => some s
  | _ :: _, [] => none
  | p :: ps, c :: cs => if p = c then stripLit ps cs else none

/-- Python's `pat in s` substring test. -/
def hasSubstr (pat : Str) : Str → Bool
  | [] => (stripLit pat []).isSome
  | c :: cs => (stripLit pat (c :: cs)).isSome || hasSubstr pat cs

/-- Try `re` pattern `https?://www\.ijf\.org/judoka/\d+` after "http" and an
already-chosen scheme middle (`['s']` or `[]`). -/
def matchAfterScheme (mid : Str) (r : Str) : Option Str :=
  match stripLit (("://www.ijf.org/judoka/").data) r with
  | none => none
  | some r2 =>
    let ds := r2.takeWhile isDigitChar
    if ds = [] then none
    else some (("http").data ++ mid ++ ("://www.ijf.org/judoka/").data ++ ds)

/-- Match `https?://www\.ijf\.org/judoka/\d+` at the start of `u`
(greedy optional `s`, greedy digits). -/
def matchJudokaAt (u : Str) : Option Str :=
  match stripLit (("http").data) u with
  | none => none
  | some r1 =>
    match r1 with
    | 's' :: r1s =>
      (match matchAfterScheme (['s']) r1s with
       | some m => some m
       | none => matchAfterScheme [] r1)
    | _ => matchAfterScheme [] r1

/-- `re.search(r"(https?://www\.ijf\.org/judoka/\d+)", u)`: leftmost match. -/
def regexSearchJudoka : Str → Option Str
  | [] => none
  | c :: cs =>
    match matchJudokaAt (c :: cs) with
    | some m => some m
    | none => regexSearchJudoka cs

/-- The anchor scan inside ijf_search_judoka_url: first href containing
"/judoka/" whose absolutized form matches the judoka URL pattern. -/
def firstJudokaFrom : List (Str × Str) → Option Str
  | [] => none
  | (href, _) :: rest =>
    if hasSubstr (("/judoka/").data) href then
      let u := if (("http").data).isPrefixOf href then href else IJF_BASE ++ href
      match regexSearchJudoka u with
      | some m => some m
      | none => firstJudokaFrom rest
    else firstJudokaFrom rest

/-- `ijf_search_judoka_url(session, query)` from main.py. -/
def ijf_search_judoka_url (fetch : Fetch) (query : Str) : Option Str :=
  let q := normalize_spaces query
  if q = [] then none
  else
    match fetch (IJF_BASE ++ ("/search?query=").data ++ quote_plus q) with
    | none => none
    | some (status, doc) =>
      if status ≠ 200 then none
      else firstJudokaFrom doc.anchors

/-- The anchor scan inside judoinside_search_url. -/
def firstJudoinsideFrom : List (Str × Str) → Option Str
  | [] => none
  | (href, _) :: rest =>
    if (("/judoka/").data).isPrefixOf href then some (JUDOINSIDE_BASE ++ href)
    else if (JUDOINSIDE_BASE ++ ("/judoka/").data).isPrefixOf href then some href
    else firstJudoinsideFrom rest

/-- `judoinside_search_url(session, query)` from main.py. -/
def judoinside_search_url (fetch : Fetch) (query : Str) : Option Str :=
  let q := normalize_spaces query
  if q = [] then none
  else
    match fetch (JUDOINSIDE_BASE ++ ("/search?query=").data ++ quote_plus q) with
    | none => none
    | some (status, doc) =>
      if status ≠ 200 then none
      else firstJudoinsideFrom doc.anchors

/-- Case-insensitive literal prefix test (pattern given lower-case). -/
def ciHasPre : Str → Str → Bool
  | [], _ => true
  | _ :: _, [] => false
  | p :: ps, c :: cs => p == c.toLower && ciHasPre ps cs

/-- Does `\s*[\-|/]\s*IJF` (IGNORECASE) match at the start of `s`? -/
def sepIJFAt (s : Str) : Bool :=
  match s.dropWhile isSpaceChar with
  | c :: rest =>
    (c == '-' || c == '|' || c == '/') && ciHasPre (("ijf").data) (rest.dropWhile isSpaceChar)
  | [] => false

/-- `re.sub(r"\s*[\-|/]\s*IJF.*$", "", t, flags=IGNORECASE)` on a string
without newlines: cut everything from the leftmost match on. -/
def cutSepIJF : Str → Str
  | [] => []
  | c :: cs => if sepIJFAt (c :: cs) then [] else c :: cutSepIJF cs

/-- Title fallback of ijf_extract_profile_name. -/
def ijfTitleName (doc : Doc) : Option Str :=
  match doc.title with
  | some ti =>
    let t := pyStrip (cutSepIJF (normalize_spaces ti))
    if t ≠ [] ∧ 3 ≤ t.length then some t else none
  | none => none

/-- `ijf_extract_profile_name(soup)` from main.py. -/
def ijf_extract_profile_name (doc : Doc) : Option Str :=
  match doc.h1 with
  | some h =>
    let t := normalize_spaces h
    if t ≠ [] ∧ 3 ≤ t.length then some t else ijfTitleName doc
  | none => ijfTitleName doc

/-- Does `\s*-\s*JudoInside` (IGNORECASE) match at the start of `s`? -/
def sepJIAt (s : Str) : Bool :=
  match s.dropWhile isSpaceChar with
  | c :: rest => c == '-' && ciHasPre (("judoinside").data) (rest.dropWhile isSpaceChar)
  | [] => false

/-- `re.sub(r"\s*-\s*JudoInside.*$", "", t, flags=IGNORECASE)` on a string
without newlines. -/
def cutSepJI : Str → Str
  | [] => []
  | c :: cs => if sepJIAt (c :: cs) then [] else c :: cutSepJI cs

/-- Title fallback of judoinside_extract_profile_name. -/
def jiTitleName (doc : Doc) : Option Str :=
  match doc.title with
  | some ti =>
    let t := pyStrip (cutSepJI (normalize_spaces ti))
    if t ≠ [] ∧ 3 ≤ t.length then some t else none
  | none => none

/-- `judoinside_extract_profile_name(soup)` from main.py. -/
def judoinside_extract_profile_name (doc : Doc) : Option Str :=
  match doc.h1 with
  | some h =>
    let t := normalize_spaces h
    if t ≠ [] ∧ 3 ≤ t.length then some t else jiTitleName doc
  | none => jiTitleName doc

/-- Status strings returned by fetch_profile_display_name:
"OK" / "FETCH" / "NO_NAME". -/
inductive PStatus
  | OK
  | FETCH
  | NO_NAME
deriving DecidableEq

/-- The display-name routing inside fetch_profile_display_name. -/
def profileNameOf (url : Str) (doc : Doc) : Option Str :=
  if IJF_JUDOKA_STR.isPrefixOf url then ijf_extract_profile_name doc
  else if (JUDOINSIDE_BASE ++ ("/judoka/").data).isPrefixOf url then
    judoinside_extract_profile_name doc
  else none

/-- `fetch_profile_display_name(session, url)` from main.py. -/
def fetch_profile_display_name (fetch : Fetch) (url : Str) : Option Str × PStatus :=
  match fetch url with
  | none => (none, PStatus.FETCH)
  | some (status, doc) =>
    if status ≠ 200 then (none, PStatus.FETCH)
    else
      match profileNameOf url doc with
      | none => (none, PStatus.NO_NAME)
      | some [] => (none, PStatus.NO_NAME)
      | some n => (some n, PStatus.OK)

/-
  Model of main(): the environment-derived configuration, the write/flag
  accumulation buffers, target selection, and the per-record loop.  Batch
  flushing only groups pending requests, so the buffers below accumulate
  the total set of write/flag requests issued over the whole run; an A1
  cell reference "Q10" is modelled as the pair (column letters, row).
-/

structure Config where
  ijfCol : Str
  jiCol : Str
  enableIJF : Bool
  enableJI : Bool
  enableAudit : Bool
  auditThreshold : ℚ
  startRow : Nat
  endRow : Nat

structure RunState where
  ijf_updates : List (Nat × Str)
  ji_updates : List (Nat × Str)
  color_fetch : List (Str × Nat)
  color_noname : List (Str × Nat)
  color_low : List (Str × Nat)
  cache : List (Str × (Option Str × PStatus))
  checked : Nat
  found : Nat

def initState : RunState := ⟨[], [], [], [], [], [], 0, 0⟩

/-- `(vals[i][0] if vals[i] else "").strip()` over the padded column data. -/
def cellAt (vals : List (List Str)) (i : Nat) : Str :=
  match vals.getD i [] with
  | [] => []
  | v :: _ => pyStrip v

/-- The target-selection filter in main(): skip blank and header names,
then require either a fillable gap or an auditable URL. -/
def isTarget (cfg : Config) (nv iv jv : List (List Str)) (i : Nat) : Bool :=
  let raw := cellAt nv i
  if raw = [] ∨ pyLower raw = ("name").data then false
  else
    let ijf_cell := cellAt iv i
    let ji_cell := cellAt jv i
    decide (((cfg.enableIJF = true ∧ ijf_cell = []) ∨ (cfg.enableJI = true ∧ ji_cell = [])) ∨
      (cfg.enableAudit = true ∧ (ijf_cell ≠ [] ∨ ji_cell ≠ [])))

def targets (cfg : Config) (nv iv jv : List (List Str)) : List Nat :=
  (List.range (cfg.endRow + 1 - cfg.startRow)).filter (isTarget cfg nv iv jv)

/-- `got = None; for q in qs: got = f(q); ... if got: break`. -/
def firstHit (f : Str → Option Str) : List Str → Option Str
  | [] => none
  | q :: qs =>
    match f q with
    | some u => some u
    | none => firstHit f qs

/-- Step 1) of the record loop: IJF fill.  Returns the (possibly updated)
cell value together with the updated buffers. -/
def fillIJFStep (cfg : Config) (fetch : Fetch) (qs : List Str) (row : Nat) (cell : Str)
    (st : RunState) : Str × RunState :=
  if cfg.enableIJF = true ∧ cell = [] then
    match firstHit (ijf_search_judoka_url fetch) qs with
    | some got =>
      (got, { st with ijf_updates := st.ijf_updates ++ [(row, got)], found := st.found + 1 })
    | none => (cell, st)
  else (cell, st)

/-- Step 2) of the record loop: JudoInside fill. -/
def fillJIStep (cfg : Config) (fetch : Fetch) (qs : List Str) (row : Nat) (cell : Str)
    (st : RunState) : Str × RunState :=
  if cfg.enableJI = true ∧ cell = [] then
    match firstHit (judoinside_search_url fetch) qs with
    | some got => (got, { st with ji_updates := st.ji_updates ++ [(row, got)] })
    | none => (cell, st)
  else (cell, st)

/-- Audit target choice: IJF cell first (column Q), else JudoInside cell
(column P), else nothing. -/
def auditSelect (cfg : Config) (ijf_cell ji_cell : Str) : Option (Str × Str) :=
  if IJF_JUDOKA_STR.isPrefixOf ijf_cell then some (ijf_cell, cfg.ijfCol)
  else if (JUDOINSIDE_BASE ++ ("/judoka/").data).isPrefixOf ji_cell then
    some (ji_cell, cfg.jiCol)
  else none

/-- The three audit flags written as background colours; `none` is the OK
outcome (no write). -/
inductive AuditTag
  | FETCH_FAILED
  | NAME_UNAVAILABLE
  | LOW_CONFIDENCE
deriving DecidableEq

/-- `max(gen, default=0.0)`. -/
def pyMax (l : List ℚ) (d : ℚ) : ℚ :=
  match l with
  | [] => d
  | x :: xs => xs.foldl max x

/-- The audit branch ordering in main(): FETCH, then NO_NAME or falsy
display name, then the score test against AUDIT_THRESHOLD. -/
def classifyAudit (T : ℚ) (qs : List Str) (disp : Option Str) (pst : PStatus) :
    Option AuditTag :=
  if pst = PStatus.FETCH then some AuditTag.FETCH_FAILED
  else if pst = PStatus.NO_NAME ∨ disp = none ∨ disp = some [] then
    some AuditTag.NAME_UNAVAILABLE
  else
    let n := disp.getD []
    let mx := pyMax (qs.map (fun q => name_match_score q n)) 0
    if mx < T then some AuditTag.LOW_CONFIDENCE else none

def pushTag (st : RunState) (col : Str) (row : Nat) : Option AuditTag → RunState
  | some AuditTag.FETCH_FAILED => { st with color_fetch := st.color_fetch ++ [(col, row)] }
  | some AuditTag.NAME_UNAVAILABLE => { st with color_noname := st.color_noname ++ [(col, row)] }
  | some AuditTag.LOW_CONFIDENCE => { st with color_low := st.color_low ++ [(col, row)] }
  | none => st

/-- `profile_name_cache` lookup (a dict keyed by URL). -/
def findCache : List (Str × (Option Str × PStatus)) → Str → Option (Option Str × PStatus)
  | [], _ => none
  | (k, v) :: rest, u => if k = u then some v else findCache rest u

/-- Step 3) of the record loop: audit colouring. -/
def auditStep (cfg : Config) (fetch : Fetch) (qs : List Str) (row : Nat)
    (ijf_cell ji_cell : Str) (st : RunState) : RunState :=
  if cfg.enableAudit = true then
    match auditSelect cfg ijf_cell ji_cell with
    | none => st
    | some (best_url, col) =>
      if best_url ≠ [] then
        let p :=
          match findCache st.cache best_url with
          | some r => (r, st)
          | none =>
            let r := fetch_profile_display_name fetch best_url
            (r, { st with cache := st.cache ++ [(best_url, r)] })
        pushTag p.2 col row (classifyAudit cfg.auditThreshold qs p.1.1 p.1.2)
      else st
  else st

/-- One iteration of `for idx in targets` in main(). -/
def processRecord (cfg : Config) (fetch : Fetch) (nv iv jv : List (List Str))
    (st : RunState) (i : Nat) : RunState :=
  let row := cfg.startRow + i
  let raw := cellAt nv i
  let qs := build_queries_from_name raw
  if qs = [] then st
  else
    let f1 := fillIJFStep cfg fetch qs row (cellAt iv i) st
    let f2 := fillJIStep cfg fetch qs row (cellAt jv i) f1.2
    let st3 := auditStep cfg fetch qs row f1.1 f2.1 f2.2
    { st3 with checked := st3.checked + 1 }

/-- The whole record loop of main() (write and colour requests
accumulated, batching elided). -/
def runMain (cfg : Config) (fetch : Fetch) (nv iv jv : List (List Str)) : RunState :=
  (targets cfg nv iv jv).foldl (processRecord cfg fetch nv iv jv) initState

/-- The amended C6 normalizer contract, written from the corrected spec
wording: primary query is the comma-free normalization; a comma adds the
`given surname` swap built from the first two comma segments when both are
non-empty and the swap differs (case-sensitively) from the primary. -/
def buildQueriesC6Spec (raw0 : Str) : List Str :=
  let r := normalize_spaces raw0
  let primary := normalize_spaces (replaceComma r)
  if primary = [] then []
  else if containsComma r then
    match (splitComma r).map normalize_spaces with
    | p0 :: p1 :: _ =>
      if p0 ≠ [] ∧ p1 ≠ [] ∧ normalize_spaces (p1 ++ ' ' :: p0) ≠ primary then
        [primary, normalize_spaces (p1 ++ ' ' :: p0)]
      else [primary]
    | _ => [primary]
  else [primary]

/-
  Concrete collaborator stubs and configurations used to instantiate the
  theorems below.
-/

/-- A transport layer on which every request raises. -/
def fetchNone : Fetch := fun _ => none

/-- Search stub: the IJF search page for "John Smith" holds one result
anchor whose href leads to judoka 123 and whose link text is a name
sharing no token with the query. -/
def fetchC1 : Fetch := fun url =>
  if url = ("https://www.ijf.org/search?query=John+Smith").data then
    some (200, ⟨[((("/judoka/123").data), (("Zzz Qqq").data))], none, none⟩)
  else none

/-- IJF fill enabled, audit disabled, single row 2. -/
def cfgC1 : Config :=
  ⟨("Q").data, ("P").data, true, false, false, 78/100, 2, 2⟩

/-- Audit enabled, both fills disabled, single row 2. -/
def cfgC8 : Config :=
  ⟨("Q").data, ("P").data, false, false, true, 78/100, 2, 2⟩

/-- Profile stub answering status 201 with a perfectly extractable name. -/
def fetchC4 : Fetch := fun _ =>
  some (201, ⟨[], some (("Nigara Shaheen").data), none⟩)

/-- Total number of audit flags accumulated so far. -/
def flagCount (st : RunState) : Nat :=
  st.color_fetch.length + st.color_noname.length + st.color_low.length

/-
  Supporting lemmas about the whitespace normalizer.
-/

theorem wordsAux_mem_ne_nil (s : Str) :
    ∀ cur, ∀ w ∈ wordsAux s cur, w ≠ [] := by
  induction s with
  | nil =>
    intro cur w hw
    by_cases hc : cur = []
    · simp [wordsAux, hc] at hw
    · simp [wordsAux, hc] at hw
      subst hw
      simpa using hc
  | cons c cs ih =>
    intro cur w hw
    by_cases hsp : isSpaceChar c
    · by_cases hc : cur = []
      · rw [wordsAux, if_pos hsp, if_pos hc] at hw
        exact ih [] w hw
      · rw [wordsAux, if_pos hsp, if_neg hc] at hw
        rcases List.mem_cons.mp hw with h | h
        · subst h; simpa using hc
        · exact ih [] w h
    · rw [wordsAux, if_neg hsp] at hw
      exact ih (c :: cur) w hw

theorem wordsAux_mem_nospace (s : Str) :
    ∀ cur, (∀ c ∈ cur, isSpaceChar c = false) →
      ∀ w ∈ wordsAux s cur, ∀ c ∈ w, isSpaceChar c = false := by
  induction s with
  | nil =>
    intro cur hcur w hw c hc
    by_cases h0 : cur = []
    · simp [wordsAux, h0] at hw
    · simp [wordsAux, h0] at hw
      subst hw
      exact hcur c (List.mem_reverse.mp hc)
  | cons a as ih =>
    intro cur hcur w hw c hc
    by_cases hsp : isSpaceChar a
    · by_cases h0 : cur = []
      · rw [wordsAux, if_pos hsp, if_pos h0] at hw
        exact ih [] (by simp) w hw c hc
      · rw [wordsAux, if_pos hsp, if_neg h0] at hw
        rcases List.mem_cons.mp hw with h | h
        · subst h; exact hcur c (List.mem_reverse.mp hc)
        · exact ih [] (by simp) w h c hc
    · rw [wordsAux, if_neg hsp] at hw
      refine ih (a :: cur) ?_ w hw c hc
      intro d hd
      rcases List.mem_cons.mp hd with h | h
      · subst h; simpa using hsp
      · exact hcur d h

theorem words_mem_ne_nil {s w : Str} (hw : w ∈ words s) : w ≠ [] :=
  wordsAux_mem_ne_nil s [] w hw

theorem words_mem_nospace {s w : Str} (hw : w ∈ words s) :
    ∀ c ∈ w, isSpaceChar c = false :=
  wordsAux_mem_nospace s [] (by simp) w hw

theorem wordsAux_append_nospace (w : Str) (hns : ∀ c ∈ w, isSpaceChar c = false) :
    ∀ s cur, wordsAux (w ++ s) cur = wordsAux s (w.reverse ++ cur) := by
  induction w with
  | nil => intro s cur; simp
  | cons a as ih =>
    intro s cur
    have ha : isSpaceChar a = false := hns a (by simp)
    have has : ∀ c ∈ as, isSpaceChar c = false := fun c hc => hns c (by simp [hc])
    rw [List.cons_append, wordsAux, if_neg (by simp [ha])]
    rw [ih has s (a :: cur)]
    simp

theorem joinSp_cons_cons (w w' : Str) (ws : List Str) :
    joinSp (w :: w' :: ws) = w ++ ' ' :: joinSp (w' :: ws) := rfl

theorem words_joinSp (ws : List Str) (h1 : ∀ w ∈ ws, w ≠ [])
    (h2 : ∀ w ∈ ws, ∀ c ∈ w, isSpaceChar c = false) :
    words (joinSp ws) = ws := by
  induction ws with
  | nil => simp [joinSp, words, wordsAux]
  | cons w ws ih =>
    match ws with
    | [] =>
      have hw : w ≠ [] := h1 w (by simp)
      have hns : ∀ c ∈ w, isSpaceChar c = false := h2 w (by simp)
      show words (joinSp [w]) = [w]
      rw [joinSp, words]
      have := wordsAux_append_nospace w hns [] []
      simp only [List.append_nil] at this
      rw [this, wordsAux, if_neg (by simpa using hw)]
      simp
    | w' :: ws' =>
      have hw : w ≠ [] := h1 w (by simp)
      have hns : ∀ c ∈ w, isSpaceChar c = false := h2 w (by simp)
      show words (joinSp (w :: w' :: ws')) = w :: w' :: ws'
      rw [joinSp_cons_cons, words]
      rw [wordsAux_append_nospace w hns (' ' :: joinSp (w' :: ws')) []]
      simp only [List.append_nil]
      rw [wordsAux, if_pos (by simp [isSpaceChar]), if_neg (by simpa using hw)]
      have ihr : words (joinSp (w' :: ws')) = w' :: ws' :=
        ih (fun u hu => h1 u (by simp [hu])) (fun u hu => h2 u (by simp [hu]))
      rw [words] at ihr
      rw [ihr]
      simp

theorem words_normalize (s : Str) : words (normalize_spaces s) = words s := by
  rw [normalize_spaces]
  exact words_joinSp (words s) (fun w hw => words_mem_ne_nil hw)
    (fun w hw => words_mem_nospace hw)

theorem normalize_spaces_idem (s : Str) :
    normalize_spaces (normalize_spaces s) = normalize_spaces s := by
  rw [normalize_spaces, words_normalize]
  rfl

theorem wordsAux_chars (s : Str) :
    ∀ cur, ∀ w ∈ wordsAux s cur, ∀ c ∈ w, c ∈ s ∨ c ∈ cur := by
  induction s with
  | nil =>
    intro cur w hw c hc
    by_cases h0 : cur = []
    · simp [wordsAux, h0] at hw
    · simp [wordsAux, h0] at hw
      subst hw
      exact Or.inr (List.mem_reverse.mp hc)
  | cons a as ih =>
    intro cur w hw c hc
    by_cases hsp : isSpaceChar a
    · by_cases h0 : cur = []
      · rw [wordsAux, if_pos hsp, if_pos h0] at hw
        rcases ih [] w hw c hc with h | h
        · exact Or.inl (by simp [h])
        · simp at h
      · rw [wordsAux, if_pos hsp, if_neg h0] at hw
        rcases List.mem_cons.mp hw with h | h
        · subst h; exact Or.inr (List.mem_reverse.mp hc)
        · rcases ih [] w h c hc with h2 | h2
          · exact Or.inl (by simp [h2])
          · simp at h2
    · rw [wordsAux, if_neg hsp] at hw
      rcases ih (a :: cur) w hw c hc with h | h
      · exact Or.inl (by simp [h])
      · rcases List.mem_cons.mp h with h2 | h2
        · exact Or.inl (by simp [h2])
        · exact Or.inr h2

theorem mem_joinSp_of_mem {ws : List Str} {w : Str} (hw : w ∈ ws) {c : Char}
    (hc : c ∈ w) : c ∈ joinSp ws := by
  induction ws with
  | nil => simp at hw
  | cons u us ih =>
    match us with
    | [] =>
      simp at hw
      subst hw
      simpa [joinSp] using hc
    | u' :: us' =>
      rw [joinSp_cons_cons]
      rcases List.mem_cons.mp hw with h | h
      · subst h; exact List.mem_append.mpr (Or.inl hc)
      · exact List.mem_append.mpr (Or.inr (by simp [ih h]))

theorem mem_of_mem_joinSp {ws : List Str} {c : Char} (hc : c ∈ joinSp ws) :
    c = ' ' ∨ ∃ w ∈ ws, c ∈ w := by
  induction ws with
  | nil => simp [joinSp] at hc
  | cons u us ih =>
    match us with
    | [] =>
      rw [joinSp] at hc
      exact Or.inr ⟨u, by simp, hc⟩
    | u' :: us' =>
      rw [joinSp_cons_cons] at hc
      rcases List.mem_append.mp hc with h | h
      · exact Or.inr ⟨u, by simp, h⟩
      · rcases List.mem_cons.mp h with h2 | h2
        · exact Or.inl h2
        · rcases ih h2 with h3 | h3
          · exact Or.inl h3
          · rcases h3 with ⟨w, hw, hcw⟩
            exact Or.inr ⟨w, by simp [hw], hcw⟩

theorem wordsAux_mem_of_mem_cur (s : Str) :
    ∀ cur, ∀ c ∈ cur, ∃ w ∈ wordsAux s cur, c ∈ w := by
  induction s with
  | nil =>
    intro cur c hc
    have h0 : cur ≠ [] := by rintro rfl; simp at hc
    exact ⟨cur.reverse, by simp [wordsAux, h0], List.mem_reverse.mpr hc⟩
  | cons a as ih =>
    intro cur c hc
    have h0 : cur ≠ [] := by rintro rfl; simp at hc
    by_cases hsp : isSpaceChar a
    · rw [wordsAux, if_pos hsp, if_neg h0]
      exact ⟨cur.reverse, by simp, List.mem_reverse.mpr hc⟩
    · rw [wordsAux, if_neg hsp]
      exact ih (a :: cur) c (by simp [hc])

theorem wordsAux_mem_of_nonspace (s : Str) :
    ∀ cur, ∀ c ∈ s, isSpaceChar c = false → ∃ w ∈ wordsAux s cur, c ∈ w := by
  induction s with
  | nil => intro cur c hc; simp at hc
  | cons a as ih =>
    intro cur c hc hns
    rcases List.mem_cons.mp hc with h | h
    · subst h
      rw [wordsAux, if_neg (by simp [hns])]
      exact wordsAux_mem_of_mem_cur as (c :: cur) c (by simp)
    · by_cases hsp : isSpaceChar a
      · by_cases h0 : cur = []
        · rw [wordsAux, if_pos hsp, if_pos h0]
          exact ih [] c h hns
        · rw [wordsAux, if_pos hsp, if_neg h0]
          rcases ih [] c h hns with ⟨w, hw, hcw⟩
          exact ⟨w, by simp [hw], hcw⟩
      · rw [wordsAux, if_neg hsp]
        exact ih (a :: cur) c h hns

theorem words_eq_nil_all_space (s : Str) (h : ∀ c ∈ s, isSpaceChar c = true) :
    words s = [] := by
  induction s with
  | nil => rfl
  | cons a as ih =>
    rw [words, wordsAux, if_pos (h a (by simp)), if_pos rfl]
    exact ih (fun c hc => h c (by simp [hc]))

theorem words_eq_nil_iff (s : Str) :
    words s = [] ↔ ∀ c ∈ s, isSpaceChar c = true := by
  constructor
  · intro h c hc
    by_contra hns
    rcases wordsAux_mem_of_nonspace s [] c hc (by simpa using hns) with ⟨w, hw, _⟩
    rw [words] at h
    simp [h] at hw
  · exact words_eq_nil_all_space s

theorem normalize_eq_nil_iff (s : Str) :
    normalize_spaces s = [] ↔ ∀ c ∈ s, isSpaceChar c = true := by
  rw [← words_eq_nil_iff]
  constructor
  · intro h
    cases hws : words s with
    | nil => rfl
    | cons w ws' =>
      exfalso
      rw [normalize_spaces, hws] at h
      cases ws' with
      | nil =>
        rw [joinSp] at h
        exact words_mem_ne_nil (s := s) (by simp [hws]) h
      | cons w' ws'' =>
        rw [joinSp_cons_cons] at h
        simp at h
  · intro h
    rw [normalize_spaces, h, joinSp]

theorem mem_normalize_of_nonspace {s : Str} {c : Char} (hc : c ∈ s)
    (hns : isSpaceChar c = false) : c ∈ normalize_spaces s := by
  rcases wordsAux_mem_of_nonspace s [] c hc hns with ⟨w, hw, hcw⟩
  exact mem_joinSp_of_mem hw hcw

theorem mem_of_mem_normalize {s : Str} {c : Char} (hc : c ∈ normalize_spaces s) :
    c = ' ' ∨ c ∈ s := by
  rcases mem_of_mem_joinSp hc with h | ⟨w, hw, hcw⟩
  · exact Or.inl h
  · rcases wordsAux_chars s [] w hw c hcw with h | h
    · exact Or.inr h
    · simp at h

theorem comma_not_space : isSpaceChar ',' = false := rfl

theorem not_containsComma_iff (s : Str) : containsComma s = false ↔ ',' ∉ s := by
  rw [containsComma]
  simp [List.any_eq_true]
  constructor
  · intro h hmem
    exact h ',' hmem rfl
  · intro h c hc heq
    exact h (heq ▸ hc)

theorem replaceComma_eq_self {s : Str} (h : ',' ∉ s) : replaceComma s = s := by
  induction s with
  | nil => rfl
  | cons a as ih =>
    rw [replaceComma, List.map_cons]
    have ha : a ≠ ',' := fun hh => h (by simp [hh])
    rw [if_neg ha]
    have := ih (fun hh => h (by simp [hh]))
    rw [replaceComma] at this
    rw [this]

theorem splitCommaAux_chars (s : Str) :
    ∀ cur, (∀ c ∈ cur, c ≠ ',') →
      ∀ p ∈ splitCommaAux s cur, ∀ c ∈ p, (c ∈ s ∨ c ∈ cur) ∧ c ≠ ',' := by
  induction s with
  | nil =>
    intro cur hcur p hp c hc
    simp [splitCommaAux] at hp
    subst hp
    exact ⟨Or.inr (List.mem_reverse.mp hc), hcur c (List.mem_reverse.mp hc)⟩
  | cons a as ih =>
    intro cur hcur p hp c hc
    by_cases ha : a = ','
    · rw [splitCommaAux, if_pos ha] at hp
      rcases List.mem_cons.mp hp with h | h
      · subst h
        exact ⟨Or.inr (List.mem_reverse.mp hc), hcur c (List.mem_reverse.mp hc)⟩
      · rcases ih [] (by simp) p h c hc with ⟨h1 | h1, h2⟩
        · exact ⟨Or.inl (by simp [h1]), h2⟩
        · simp at h1
    · rw [splitCommaAux, if_neg ha] at hp
      have hcur2 : ∀ d ∈ a :: cur, d ≠ ',' := by
        intro d hd
        rcases List.mem_cons.mp hd with h | h
        · subst h; exact ha
        · exact hcur d h
      rcases ih (a :: cur) hcur2 p hp c hc with ⟨h1 | h1, h2⟩
      · exact ⟨Or.inl (by simp [h1]), h2⟩
      · rcases List.mem_cons.mp h1 with h3 | h3
        · exact ⟨Or.inl (by simp [h3]), h2⟩
        · exact ⟨Or.inr h3, h2⟩

theorem splitComma_chars {s p : Str} (hp : p ∈ splitComma s) :
    ∀ c ∈ p, c ∈ s ∧ c ≠ ',' := by
  intro c hc
  rcases splitCommaAux_chars s [] (by simp) p hp c hc with ⟨h1 | h1, h2⟩
  · exact ⟨h1, h2⟩
  · simp at h1

theorem dedupKeep_single {a : Str} (ha : a ≠ []) : dedupKeep [a] [] = [a] := by
  rw [dedupKeep, if_pos ⟨ha, by simp⟩, dedupKeep]

theorem dedupKeep_pair {a b : Str} (ha : a ≠ []) (hb : b ≠ []) (hab : b ≠ a) :
    dedupKeep [a, b] [] = [a, b] := by
  rw [dedupKeep, if_pos ⟨ha, by simp⟩, dedupKeep, if_pos ⟨hb, by simp [hab]⟩, dedupKeep]

theorem dedupKeep_nil_head (qs : List Str) : dedupKeep ([] :: qs) [] = dedupKeep qs [] := by
  rw [dedupKeep, if_neg (by simp)]

/-- A non-empty normalization contains a non-space character. -/
theorem exists_nonspace_of_normalize_ne_nil {s : Str} (h : normalize_spaces s ≠ []) :
    ∃ c ∈ normalize_spaces s, isSpaceChar c = false := by
  have h2 : ¬ ∀ c ∈ s, isSpaceChar c = true := fun hall =>
    h ((normalize_eq_nil_iff s).mpr hall)
  push_neg at h2
  rcases h2 with ⟨c, hc, hns⟩
  have hns2 : isSpaceChar c = false := by simpa using hns
  exact ⟨c, mem_normalize_of_nonspace hc hns2, hns2⟩

theorem upper_toUpper_fix : ∀ c ∈ ("ABCDEFGHIJKLMNOPQRSTUVWXYZ").data, Char.toUpper c = c := by
  decide

/-- C9: col_to_index maps every spreadsheet-style column letter string to
its 1-based index under bijective base-26: "A" to 1, "Z" to 26, "AA" to 27,
and each appended letter multiplies the accumulated value by 26 and adds
the letter's alphabet position. -/
theorem C9_col_to_index_base26 :
    col_to_index (("A").data) = 1 ∧ col_to_index (("Z").data) = 26 ∧
    col_to_index (("AA").data) = 27 ∧
    ∀ (s : Str) (c : Char), c ∈ ("ABCDEFGHIJKLMNOPQRSTUVWXYZ").data →
      col_to_index (s ++ [c]) =
        26 * col_to_index s + ((c.toNat : Int) - ('A'.toNat : Int) + 1) := by
  refine ⟨by decide, by decide, by decide, ?_⟩
  intro s c hc
  have hcu : Char.toUpper c = c := upper_toUpper_fix c hc
  simp [col_to_index, pyUpper, List.foldl_append, hcu]
  ring

/-- Witness for C9 at the concrete column "AB". -/
theorem C9_witness :
    col_to_index (("A").data ++ ['B']) =
      26 * col_to_index (("A").data) + (('B'.toNat : Int) - ('A'.toNat : Int) + 1) :=
  C9_col_to_index_base26.2.2.2 (("A").data) 'B' (by decide)

/-- C2 counterexample: the scorer has no MIN_TOKENS rule;
score("Al", "Al Jones") is 1/2, not 0. -/
theorem C2_counterexample :
    name_match_score (("Al").data) (("Al Jones").data) = 1/2 ∧ (1 : ℚ)/2 ≠ 0 := by
  constructor
  · have h1 : token_set (("Al").data) = [("al").data] := by decide
    have h2 : token_set (("Al Jones").data) = [("al").data, ("jones").data] := by decide
    unfold name_match_score
    simp only [h1, h2]
    norm_num
    decide
  · norm_num

theorem score_Al_AlJones : name_match_score (("Al").data) (("Al Jones").data) = 1/2 := by
  have h1 : token_set (("Al").data) = [("al").data] := by decide
  have h2 : token_set (("Al Jones").data) = [("al").data, ("jones").data] := by decide
  unfold name_match_score
  simp only [h1, h2]
  norm_num
  decide

/-- C2 amended: the scorer has no MIN_TOKENS rule.  score("Al","Al Jones")
is 1/2, and for every pair of inputs the score is 0 exactly when the two
token sets share no token (in particular when either is empty). -/
theorem C2_score_zero_iff :
    name_match_score (("Al").data) (("Al Jones").data) = 1/2 ∧
    ∀ q n : Str, (name_match_score q n = 0 ↔ ∀ t ∈ token_set q, t ∉ token_set n) := by
  refine ⟨score_Al_AlJones, ?_⟩
  intro q n
  by_cases h : token_set q = [] ∨ token_set n = []
  · rcases h with h | h
    · simp [name_match_score, h]
    · simp [name_match_score, h]
  · push_neg at h
    obtain ⟨x, hx⟩ := List.exists_mem_of_ne_nil _ h.2
    have hxu : x ∈ token_set q ∪ token_set n := List.mem_union_iff.mpr (Or.inr hx)
    have hu : (token_set q ∪ token_set n) ≠ [] := List.ne_nil_of_mem hxu
    have hul : (token_set q ∪ token_set n).length ≠ 0 := by
      simpa [List.length_eq_zero] using hu
    unfold name_match_score
    rw [if_neg (by tauto), if_neg hul, div_eq_zero_iff]
    constructor
    · intro hc t ht htn
      rcases hc with hc | hc
      · have : ((token_set q).filter (fun t => t ∈ token_set n)).length = 0 := by
          exact_mod_cast hc
        rw [List.length_eq_zero, List.filter_eq_nil_iff] at this
        exact this t ht (by simpa using htn)
      · exact hul (by exact_mod_cast hc)
    · intro hno
      left
      have : ((token_set q).filter (fun t => t ∈ token_set n)) = [] := by
        rw [List.filter_eq_nil_iff]
        intro t ht
        simpa using hno t ht
      rw [this]
      simp

/-- Witness for C2: two names with no common token score 0. -/
theorem C2_witness : name_match_score (("Al").data) (("Bob Cole").data) = 0 :=
  (C2_score_zero_iff.2 (("Al").data) (("Bob Cole").data)).mpr (by decide)

/-- C5 counterexample: a comma-free two-token name yields only the primary
query; the swapped variant claimed by the spec is absent. -/
theorem C5_counterexample :
    build_queries_from_name (("John Smith").data) = [("John Smith").data] ∧
    ("Smith John").data ∉ build_queries_from_name (("John Smith").data) := by
  decide

/-- C5 amended: the swapped secondary query exists only for names with a
comma; every comma-free name with at least two tokens yields exactly the
single normalized primary query. -/
theorem C5_no_comma_single_query (raw : Str) (hc : ',' ∉ raw)
    (hlen : 2 ≤ (words raw).length) :
    build_queries_from_name raw = [normalize_spaces raw] := by
  have hrne : normalize_spaces raw ≠ [] := by
    intro h0
    rw [normalize_eq_nil_iff] at h0
    rw [words_eq_nil_all_space raw h0] at hlen
    simp at hlen
  have hcm : ',' ∉ normalize_spaces raw := by
    intro hmem
    rcases mem_of_mem_normalize hmem with h | h
    · exact absurd h (by decide)
    · exact hc h
  have hrepl : replaceComma (normalize_spaces raw) = normalize_spaces raw :=
    replaceComma_eq_self hcm
  have hcc : containsComma (normalize_spaces raw) = false :=
    (not_containsComma_iff _).mpr hcm
  simp only [build_queries_from_name]
  rw [if_neg hrne, hrepl, normalize_spaces_idem, hcc]
  rw [if_neg (by simp : ¬(false = true))]
  exact dedupKeep_single hrne

/-- Witness for C5 at the concrete name "John Smith". -/
theorem C5_witness :
    build_queries_from_name (("John Smith").data) =
      [normalize_spaces (("John Smith").data)] :=
  C5_no_comma_single_query (("John Smith").data) (by decide) (by decide)

/-- C7 counterexample: the normalizer does not special-case the header
token; build_queries_from_name("Name") is ["Name"], not []. -/
theorem C7_counterexample :
    build_queries_from_name (("Name").data) = [("Name").data] ∧
    build_queries_from_name (("Name").data) ≠ [] := by
  decide

theorem dedupKeep_cons_ne_nil {q : Str} (hq : q ≠ []) (qs : List Str) :
    dedupKeep (q :: qs) [] ≠ [] := by
  rw [dedupKeep, if_pos ⟨hq, by simp⟩]
  simp

/-- When the comma-free normalization of the (normalized) name is empty,
the whole query list is empty. -/
theorem build_queries_eq_nil_of_primary_nil (raw : Str)
    (hprim : normalize_spaces (replaceComma (normalize_spaces raw)) = []) :
    build_queries_from_name raw = [] := by
  by_cases hr : normalize_spaces raw = []
  · simp only [build_queries_from_name]
    rw [if_pos hr]
  · have hchars : ∀ c ∈ normalize_spaces raw, isSpaceChar c = true ∨ c = ',' := by
      intro c hcm
      by_cases hc : c = ','
      · exact Or.inr hc
      · left
        have himg : c ∈ replaceComma (normalize_spaces raw) := by
          rw [replaceComma]
          exact List.mem_map.mpr ⟨c, hcm, by rw [if_neg hc]⟩
        exact (normalize_eq_nil_iff _).mp hprim c himg
    have hparts : ∀ p ∈ (splitComma (normalize_spaces raw)).map normalize_spaces, p = [] := by
      intro p hp
      rcases List.mem_map.mp hp with ⟨seg, hseg, hpe⟩
      subst hpe
      rw [normalize_eq_nil_iff]
      intro c hcm
      have h2 := splitComma_chars hseg c hcm
      rcases hchars c h2.1 with h3 | h3
      · exact h3
      · exact absurd h3 h2.2
    simp only [build_queries_from_name]
    rw [if_neg hr, hprim]
    split
    · split
      · rename_i p0 p1 tail heq
        have hp0 : p0 = [] := hparts p0 (by rw [heq]; simp)
        rw [if_neg (by simp [hp0])]
        rw [dedupKeep_nil_head, dedupKeep]
      · rw [dedupKeep_nil_head, dedupKeep]
    · rw [dedupKeep_nil_head, dedupKeep]

theorem build_queries_ne_nil_of_primary_ne_nil (raw : Str)
    (hprim : normalize_spaces (replaceComma (normalize_spaces raw)) ≠ []) :
    build_queries_from_name raw ≠ [] := by
  have hr : normalize_spaces raw ≠ [] := by
    intro h0
    apply hprim
    rw [h0]
    rfl
  simp only [build_queries_from_name]
  rw [if_neg hr]
  split
  · split
    · split
      · split
        · rw [List.singleton_append]
          exact dedupKeep_cons_ne_nil hprim _
        · exact dedupKeep_cons_ne_nil hprim []
      · exact dedupKeep_cons_ne_nil hprim []
    · exact dedupKeep_cons_ne_nil hprim []
  · exact dedupKeep_cons_ne_nil hprim []

/-- C7 amended: the normalizer returns an empty query list exactly when the
raw name consists of whitespace and commas only; the header token "name" is
instead skipped by main()'s target selection, and a record whose query list
is empty is skipped by the record loop without any effect. -/
theorem C7_empty_query_behavior :
    (∀ raw : Str,
      build_queries_from_name raw = [] ↔ ∀ c ∈ raw, isSpaceChar c = true ∨ c = ',') ∧
    (∀ cfg nv iv jv i, pyLower (cellAt nv i) = ("name").data →
      i ∉ targets cfg nv iv jv) ∧
    (∀ cfg fetch nv iv jv st i, build_queries_from_name (cellAt nv i) = [] →
      processRecord cfg fetch nv iv jv st i = st) := by
  refine ⟨?_, ?_, ?_⟩
  · intro raw
    constructor
    · intro hB c hc
      by_contra hns
      push_neg at hns
      have hcs : isSpaceChar c = false := by
        rcases Bool.eq_false_or_eq_true (isSpaceChar c) with h | h
        · exact absurd h hns.1
        · exact h
      have hccm : c ≠ ',' := hns.2
      have h1 : c ∈ normalize_spaces raw := mem_normalize_of_nonspace hc hcs
      have h2 : c ∈ replaceComma (normalize_spaces raw) := by
        rw [replaceComma]
        exact List.mem_map.mpr ⟨c, h1, by rw [if_neg hccm]⟩
      have h3 : c ∈ normalize_spaces (replaceComma (normalize_spaces raw)) :=
        mem_normalize_of_nonspace h2 hcs
      exact build_queries_ne_nil_of_primary_ne_nil raw (List.ne_nil_of_mem h3) hB
    · intro hall
      apply build_queries_eq_nil_of_primary_nil
      rw [normalize_eq_nil_iff]
      intro c hcm
      rcases List.mem_map.mp hcm with ⟨d, hd, hde⟩
      by_cases hd2 : d = ','
      · rw [if_pos hd2] at hde
        subst hde
        decide
      · rw [if_neg hd2] at hde
        subst hde
        rcases mem_of_mem_normalize hd with h1 | h1
        · subst h1
          decide
        · rcases hall d h1 with h2 | h2
          · exact h2
          · exact absurd h2 hd2
  · intro cfg nv iv jv i hname hmem
    have h2 := (List.mem_filter.mp hmem).2
    simp only [isTarget] at h2
    rw [if_pos (Or.inr hname)] at h2
    exact absurd h2 (by simp)
  · intro cfg fetch nv iv jv st i h
    simp only [processRecord]
    rw [if_pos h]

/-- Witness for C7: a comma-only name cell makes the record loop a no-op. -/
theorem C7_witness :
    processRecord cfgC8 fetchNone [[(",").data]] [] [] initState 0 = initState :=
  C7_empty_query_behavior.2.2 cfgC8 fetchNone [[(",").data]] [] [] initState 0 (by decide)

theorem pushTag_ijf (st : RunState) (col : Str) (row : Nat) (t : Option AuditTag) :
    (pushTag st col row t).ijf_updates = st.ijf_updates := by
  cases t with
  | none => rfl
  | some tag => cases tag <;> rfl

theorem pushTag_ji (st : RunState) (col : Str) (row : Nat) (t : Option AuditTag) :
    (pushTag st col row t).ji_updates = st.ji_updates := by
  cases t with
  | none => rfl
  | some tag => cases tag <;> rfl

theorem fillIJFStep_ji (cfg : Config) (fetch : Fetch) (qs : List Str) (row : Nat)
    (cell : Str) (st : RunState) :
    ((fillIJFStep cfg fetch qs row cell st).2).ji_updates = st.ji_updates := by
  unfold fillIJFStep
  split
  · split <;> rfl
  · rfl

theorem fillJIStep_ijf (cfg : Config) (fetch : Fetch) (qs : List Str) (row : Nat)
    (cell : Str) (st : RunState) :
    ((fillJIStep cfg fetch qs row cell st).2).ijf_updates = st.ijf_updates := by
  unfold fillJIStep
  split
  · split <;> rfl
  · rfl

theorem auditStep_ijf (cfg : Config) (fetch : Fetch) (qs : List Str) (row : Nat)
    (c1 c2 : Str) (st : RunState) :
    (auditStep cfg fetch qs row c1 c2 st).ijf_updates = st.ijf_updates := by
  unfold auditStep
  split
  · split
    · rfl
    · split
      · rw [pushTag_ijf]
        split <;> rfl
      · rfl
  · rfl

theorem auditStep_ji (cfg : Config) (fetch : Fetch) (qs : List Str) (row : Nat)
    (c1 c2 : Str) (st : RunState) :
    (auditStep cfg fetch qs row c1 c2 st).ji_updates = st.ji_updates := by
  unfold auditStep
  split
  · split
    · rfl
    · split
      · rw [pushTag_ji]
        split <;> rfl
      · rfl
  · rfl

theorem firstHit_eq_none (f : Str → Option Str) (qs : List Str)
    (h : ∀ q ∈ qs, f q = none) : firstHit f qs = none := by
  induction qs with
  | nil => rfl
  | cons q qs ih =>
    rw [firstHit, h q (by simp)]
    exact ih (fun p hp => h p (by simp [hp]))

/-- Bumping `checked` leaves the write buffer fields unchanged. -/
theorem checkedBump_ijf (st : RunState) :
    ({ st with checked := st.checked + 1 }).ijf_updates = st.ijf_updates := rfl

theorem checkedBump_ji (st : RunState) :
    ({ st with checked := st.checked + 1 }).ji_updates = st.ji_updates := rfl

/-- Per-record effect on the IJF write buffer: unchanged, or one appended
write for this row, the latter only when the IJF cell was read empty. -/
theorem processRecord_ijf_char (cfg : Config) (fetch : Fetch)
    (nv iv jv : List (List Str)) (st : RunState) (i : Nat) :
    (processRecord cfg fetch nv iv jv st i).ijf_updates = st.ijf_updates ∨
    (cellAt iv i = [] ∧ ∃ got,
      (processRecord cfg fetch nv iv jv st i).ijf_updates =
        st.ijf_updates ++ [(cfg.startRow + i, got)]) := by
  simp only [processRecord]
  split
  · exact Or.inl rfl
  · rw [checkedBump_ijf, auditStep_ijf, fillJIStep_ijf]
    by_cases hcond : cfg.enableIJF = true ∧ cellAt iv i = []
    · cases hfh : firstHit (ijf_search_judoka_url fetch)
          (build_queries_from_name (cellAt nv i)) with
      | some got =>
        refine Or.inr ⟨hcond.2, got, ?_⟩
        unfold fillIJFStep
        rw [if_pos hcond, hfh]
      | none =>
        refine Or.inl ?_
        unfold fillIJFStep
        rw [if_pos hcond, hfh]
    · refine Or.inl ?_
      unfold fillIJFStep
      rw [if_neg hcond]

/-- Per-record effect on the JudoInside write buffer. -/
theorem processRecord_ji_char (cfg : Config) (fetch : Fetch)
    (nv iv jv : List (List Str)) (st : RunState) (i : Nat) :
    (processRecord cfg fetch nv iv jv st i).ji_updates = st.ji_updates ∨
    (cellAt jv i = [] ∧ ∃ got,
      (processRecord cfg fetch nv iv jv st i).ji_updates =
        st.ji_updates ++ [(cfg.startRow + i, got)]) := by
  simp only [processRecord]
  split
  · exact Or.inl rfl
  · rw [checkedBump_ji, auditStep_ji]
    by_cases hcond : cfg.enableJI = true ∧ cellAt jv i = []
    · cases hfh : firstHit (judoinside_search_url fetch)
          (build_queries_from_name (cellAt nv i)) with
      | some got =>
        refine Or.inr ⟨hcond.2, got, ?_⟩
        unfold fillJIStep
        rw [if_pos hcond, hfh, fillIJFStep_ji]
      | none =>
        refine Or.inl ?_
        unfold fillJIStep
        rw [if_pos hcond, hfh, fillIJFStep_ji]
    · refine Or.inl ?_
      unfold fillJIStep
      rw [if_neg hcond, fillIJFStep_ji]

theorem matchAfterScheme_shape {mid r m : Str}
    (h : matchAfterScheme mid r = some m) :
    ∃ ds : Str, ds ≠ [] ∧ (∀ c ∈ ds, isDigitChar c = true) ∧
      m = ("http").data ++ mid ++ ("://www.ijf.org/judoka/").data ++ ds := by
  unfold matchAfterScheme at h
  split at h
  · simp at h
  · rename_i r2 heq
    dsimp only [] at h
    split at h
    · simp at h
    · rename_i hds
      refine ⟨r2.takeWhile isDigitChar, hds, ?_, (Option.some.inj h).symm⟩
      intro c hc
      exact List.mem_takeWhile_imp hc

theorem matchJudokaAt_shape {u m : Str} (h : matchJudokaAt u = some m) :
    ∃ ds : Str, ds ≠ [] ∧ (∀ c ∈ ds, isDigitChar c = true) ∧
      (m = ("https://www.ijf.org/judoka/").data ++ ds ∨
       m = ("http://www.ijf.org/judoka/").data ++ ds) := by
  have hlit1 : ("http").data ++ ['s'] ++ ("://www.ijf.org/judoka/").data =
      ("https://www.ijf.org/judoka/").data := by decide
  have hlit2 : ("http").data ++ ([] : Str) ++ ("://www.ijf.org/judoka/").data =
      ("http://www.ijf.org/judoka/").data := by decide
  unfold matchJudokaAt at h
  split at h
  · simp at h
  · rename_i r1 heq
    split at h
    · split at h
      · rename_i m' hm'
        rcases matchAfterScheme_shape hm' with ⟨ds, h1, h2, h3⟩
        have hmm : m' = m := Option.some.inj h
        subst hmm
        refine ⟨ds, h1, h2, Or.inl ?_⟩
        rw [h3, hlit1]
      · rename_i hnone
        rcases matchAfterScheme_shape h with ⟨ds, h1, h2, h3⟩
        refine ⟨ds, h1, h2, Or.inr ?_⟩
        rw [h3, hlit2]
    · rcases matchAfterScheme_shape h with ⟨ds, h1, h2, h3⟩
      refine ⟨ds, h1, h2, Or.inr ?_⟩
      rw [h3, hlit2]

theorem regexSearchJudoka_shape : ∀ {s m : Str}, regexSearchJudoka s = some m →
    ∃ ds : Str, ds ≠ [] ∧ (∀ c ∈ ds, isDigitChar c = true) ∧
      (m = ("https://www.ijf.org/judoka/").data ++ ds ∨
       m = ("http://www.ijf.org/judoka/").data ++ ds) := by
  intro s
  induction s with
  | nil => intro m h; simp [regexSearchJudoka] at h
  | cons c cs ih =>
    intro m h
    rw [regexSearchJudoka] at h
    split at h
    · rename_i m' hm'
      have hmm : m' = m := Option.some.inj h
      subst hmm
      exact matchJudokaAt_shape hm'
    · exact ih h

theorem firstJudokaFrom_shape : ∀ {l : List (Str × Str)} {u0 : Str},
    firstJudokaFrom l = some u0 →
    ∃ ds : Str, ds ≠ [] ∧ (∀ c ∈ ds, isDigitChar c = true) ∧
      (u0 = ("https://www.ijf.org/judoka/").data ++ ds ∨
       u0 = ("http://www.ijf.org/judoka/").data ++ ds) := by
  intro l
  induction l with
  | nil => intro u0 h; simp [firstJudokaFrom] at h
  | cons a rest ih =>
    intro u0 h
    obtain ⟨href, txt⟩ := a
    rw [firstJudokaFrom] at h
    dsimp only [] at h
    split at h
    · split at h
      · rename_i m hm
        have hmu : m = u0 := Option.some.inj h
        subst hmu
        exact regexSearchJudoka_shape hm
      · exact ih h
    · exact ih h

theorem ijf_search_judoka_url_shape {fetch : Fetch} {q u0 : Str}
    (h : ijf_search_judoka_url fetch q = some u0) :
    ∃ ds : Str, ds ≠ [] ∧ (∀ c ∈ ds, isDigitChar c = true) ∧
      (u0 = ("https://www.ijf.org/judoka/").data ++ ds ∨
       u0 = ("http://www.ijf.org/judoka/").data ++ ds) := by
  unfold ijf_search_judoka_url at h
  dsimp only [] at h
  split at h
  · simp at h
  · split at h
    · simp at h
    · split at h
      · simp at h
      · exact firstJudokaFrom_shape h

/-- C1 corrected by counterexample: the resolver writes the first
/judoka/ URL found for "John Smith" although the candidate's displayed
name ("Zzz Qqq") scores 0 against the only query — no threshold exists. -/
theorem C1_counterexample :
    (runMain cfgC1 fetchC1 [[("John Smith").data]] [] []).ijf_updates =
      [(2, ("https://www.ijf.org/judoka/123").data)] ∧
    build_queries_from_name (("John Smith").data) = [("John Smith").data] ∧
    name_match_score (("John Smith").data) (("Zzz Qqq").data) = 0 := by
  refine ⟨by decide, by decide, ?_⟩
  have h1 : token_set (("John Smith").data) = [("john").data, ("smith").data] := by decide
  have h2 : token_set (("Zzz Qqq").data) = [("zzz").data, ("qqq").data] := by decide
  unfold name_match_score
  simp only [h1, h2]
  norm_num
  decide

/-- C1 amended: resolution performs no scoring and consults no threshold.
Every accepted URL is simply the first anchor matching the judoka URL
pattern; when every query's search yields nothing the loop sees None and
issues no IJF write for the record. -/
theorem C1_resolver_no_threshold :
    (∀ (fetch : Fetch) (q u0 : Str), ijf_search_judoka_url fetch q = some u0 →
      ∃ ds : Str, ds ≠ [] ∧ (∀ c ∈ ds, isDigitChar c = true) ∧
        (u0 = ("https://www.ijf.org/judoka/").data ++ ds ∨
         u0 = ("http://www.ijf.org/judoka/").data ++ ds)) ∧
    (∀ (f : Str → Option Str) (qs : List Str),
      (∀ q ∈ qs, f q = none) → firstHit f qs = none) ∧
    (∀ (cfg : Config) (fetch : Fetch) (nv iv jv : List (List Str)) (st : RunState) (i : Nat),
      (∀ q ∈ build_queries_from_name (cellAt nv i), ijf_search_judoka_url fetch q = none) →
      (processRecord cfg fetch nv iv jv st i).ijf_updates = st.ijf_updates) := by
  refine ⟨fun fetch q u0 h => ijf_search_judoka_url_shape h, firstHit_eq_none, ?_⟩
  intro cfg fetch nv iv jv st i hnone
  simp only [processRecord]
  split
  · rfl
  · rw [checkedBump_ijf, auditStep_ijf, fillJIStep_ijf]
    unfold fillIJFStep
    split
    · rw [firstHit_eq_none _ _ hnone]
    · rfl

/-- Witness for C1: a dead transport produces no IJF write. -/
theorem C1_witness :
    (processRecord cfgC1 fetchNone [[("John Smith").data]] [] [] initState 0).ijf_updates =
      initState.ijf_updates :=
  C1_resolver_no_threshold.2.2 cfgC1 fetchNone [[("John Smith").data]] [] [] initState 0
    (by decide)

theorem runMain_ijf_mem (cfg : Config) (fetch : Fetch) (nv iv jv : List (List Str)) :
    ∀ r v, (r, v) ∈ (runMain cfg fetch nv iv jv).ijf_updates →
      ∃ j, r = cfg.startRow + j ∧ cellAt iv j = [] := by
  rw [runMain]
  suffices h : ∀ (l : List Nat) (st : RunState),
      (∀ r v, (r, v) ∈ st.ijf_updates → ∃ j, r = cfg.startRow + j ∧ cellAt iv j = []) →
      ∀ r v, (r, v) ∈ (l.foldl (processRecord cfg fetch nv iv jv) st).ijf_updates →
        ∃ j, r = cfg.startRow + j ∧ cellAt iv j = [] by
    intro r v hm
    exact h (targets cfg nv iv jv) initState (by simp [initState]) r v hm
  intro l
  induction l with
  | nil => intro st hst r v hm; exact hst r v hm
  | cons i l ih =>
    intro st hst r v hm
    rw [List.foldl_cons] at hm
    refine ih (processRecord cfg fetch nv iv jv st i) ?_ r v hm
    intro r2 v2 hm2
    rcases processRecord_ijf_char cfg fetch nv iv jv st i with h | ⟨hcell, got, heq⟩
    · rw [h] at hm2
      exact hst r2 v2 hm2
    · rw [heq] at hm2
      rcases List.mem_append.mp hm2 with h2 | h2
      · exact hst r2 v2 h2
      · simp at h2
        exact ⟨i, h2.1, hcell⟩

theorem runMain_ji_mem (cfg : Config) (fetch : Fetch) (nv iv jv : List (List Str)) :
    ∀ r v, (r, v) ∈ (runMain cfg fetch nv iv jv).ji_updates →
      ∃ j, r = cfg.startRow + j ∧ cellAt jv j = [] := by
  rw [runMain]
  suffices h : ∀ (l : List Nat) (st : RunState),
      (∀ r v, (r, v) ∈ st.ji_updates → ∃ j, r = cfg.startRow + j ∧ cellAt jv j = []) →
      ∀ r v, (r, v) ∈ (l.foldl (processRecord cfg fetch nv iv jv) st).ji_updates →
        ∃ j, r = cfg.startRow + j ∧ cellAt jv j = [] by
    intro r v hm
    exact h (targets cfg nv iv jv) initState (by simp [initState]) r v hm
  intro l
  induction l with
  | nil => intro st hst r v hm; exact hst r v hm
  | cons i l ih =>
    intro st hst r v hm
    rw [List.foldl_cons] at hm
    refine ih (processRecord cfg fetch nv iv jv st i) ?_ r v hm
    intro r2 v2 hm2
    rcases processRecord_ji_char cfg fetch nv iv jv st i with h | ⟨hcell, got, heq⟩
    · rw [h] at hm2
      exact hst r2 v2 hm2
    · rw [heq] at hm2
      rcases List.mem_append.mp hm2 with h2 | h2
      · exact hst r2 v2 h2
      · simp at h2
        exact ⟨i, h2.1, hcell⟩

/-- C3: fill-once invariant.  A record whose IJF (resp. JudoInside) cell
is non-empty at read time receives no write request to that column over a
whole run, whatever the fetcher returns. -/
theorem C3_fill_once (cfg : Config) (fetch : Fetch) (nv iv jv : List (List Str)) (i : Nat) :
    (cellAt iv i ≠ [] →
      ∀ v, (cfg.startRow + i, v) ∉ (runMain cfg fetch nv iv jv).ijf_updates) ∧
    (cellAt jv i ≠ [] →
      ∀ v, (cfg.startRow + i, v) ∉ (runMain cfg fetch nv iv jv).ji_updates) := by
  constructor
  · intro hcell v hm
    rcases runMain_ijf_mem cfg fetch nv iv jv _ _ hm with ⟨j, hj, hempty⟩
    have hij : i = j := Nat.add_left_cancel hj
    rw [← hij] at hempty
    exact hcell hempty
  · intro hcell v hm
    rcases runMain_ji_mem cfg fetch nv iv jv _ _ hm with ⟨j, hj, hempty⟩
    have hij : i = j := Nat.add_left_cancel hj
    rw [← hij] at hempty
    exact hcell hempty

/-- Witness for C3: cells already holding text are never rewritten. -/
theorem C3_witness :
    (cfgC1.startRow + 0, ("u").data) ∉
      (runMain cfgC1 fetchNone [[("John Smith").data]] [[("x").data]] [[("y").data]]).ijf_updates ∧
    (cfgC1.startRow + 0, ("u").data) ∉
      (runMain cfgC1 fetchNone [[("John Smith").data]] [[("x").data]] [[("y").data]]).ji_updates :=
  ⟨(C3_fill_once cfgC1 fetchNone [[("John Smith").data]] [[("x").data]] [[("y").data]] 0).1
      (by decide) (("u").data),
   (C3_fill_once cfgC1 fetchNone [[("John Smith").data]] [[("x").data]] [[("y").data]] 0).2
      (by decide) (("u").data)⟩

/-- C4 corrected by counterexample: a 2xx-but-not-200 status (201) is
classified FETCH_FAILED although the page carries an extractable name. -/
theorem C4_counterexample :
    (fetch_profile_display_name fetchC4 (("https://www.ijf.org/judoka/1").data)).2 =
      PStatus.FETCH ∧
    (200 ≤ 201 ∧ 201 < 300) ∧
    ijf_extract_profile_name ⟨[], some (("Nigara Shaheen").data), none⟩ =
      some (("Nigara Shaheen").data) := by
  decide

/-- C4 amended: the audit outcome partitions exactly as: unreachable or
status other than 200 yields FETCH_FAILED; a 200 fetch with no extractable
(non-empty) name yields NAME_UNAVAILABLE; an extracted name whose maximal
query score is below AUDIT_THRESHOLD yields LOW_CONFIDENCE; otherwise the
outcome is OK (no flag). -/
theorem C4_audit_taxonomy (fetch : Fetch) (url : Str) (qs : List Str) (T : ℚ) :
    (classifyAudit T qs (fetch_profile_display_name fetch url).1
        (fetch_profile_display_name fetch url).2 = some AuditTag.FETCH_FAILED ↔
      (fetch url = none ∨ ∃ s doc, fetch url = some (s, doc) ∧ s ≠ 200)) ∧
    (classifyAudit T qs (fetch_profile_display_name fetch url).1
        (fetch_profile_display_name fetch url).2 = some AuditTag.NAME_UNAVAILABLE ↔
      (∃ doc, fetch url = some (200, doc) ∧
        (profileNameOf url doc = none ∨ profileNameOf url doc = some []))) ∧
    (classifyAudit T qs (fetch_profile_display_name fetch url).1
        (fetch_profile_display_name fetch url).2 = some AuditTag.LOW_CONFIDENCE ↔
      (∃ doc n, fetch url = some (200, doc) ∧ profileNameOf url doc = some n ∧ n ≠ [] ∧
        pyMax (qs.map (fun q => name_match_score q n)) 0 < T)) ∧
    (classifyAudit T qs (fetch_profile_display_name fetch url).1
        (fetch_profile_display_name fetch url).2 = none ↔
      (∃ doc n, fetch url = some (200, doc) ∧ profileNameOf url doc = some n ∧ n ≠ [] ∧
        T ≤ pyMax (qs.map (fun q => name_match_score q n)) 0)) := by
  cases hf : fetch url with
  | none =>
    simp [fetch_profile_display_name, classifyAudit, hf]
  | some p =>
    obtain ⟨s, doc⟩ := p
    by_cases hs : s = 200
    · subst hs
      cases hn : profileNameOf url doc with
      | none =>
        simp [fetch_profile_display_name, classifyAudit, hf, hn]
      | some n =>
        cases n with
        | nil =>
          simp [fetch_profile_display_name, classifyAudit, hf, hn]
        | cons c cs =>
          by_cases hmx : pyMax (qs.map (fun q => name_match_score q (c :: cs))) 0 < T
          · simp [fetch_profile_display_name, classifyAudit, hf, hn, hmx]
          · simp [fetch_profile_display_name, classifyAudit, hf, hn, hmx, le_of_not_lt hmx]
    · simp [fetch_profile_display_name, classifyAudit, hf, hs]

/-- Witness for C4: a dead transport is classified FETCH_FAILED. -/
theorem C4_witness :
    classifyAudit 1 [] (fetch_profile_display_name fetchNone (("x").data)).1
      (fetch_profile_display_name fetchNone (("x").data)).2 = some AuditTag.FETCH_FAILED :=
  ((C4_audit_taxonomy fetchNone (("x").data) [] 1).1).mpr (Or.inl rfl)

theorem pushTag_flagCount (st : RunState) (col : Str) (row : Nat) (t : Option AuditTag) :
    flagCount (pushTag st col row t) =
      flagCount st + (match t with | none => 0 | some _ => 1) := by
  cases t with
  | none => simp [pushTag]
  | some tag =>
    cases tag <;> simp [pushTag, flagCount] <;> omega

theorem pushTag_mem_fetch (st : RunState) (col : Str) (row : Nat) (t : Option AuditTag)
    (e : Str × Nat) (h : e ∈ (pushTag st col row t).color_fetch) :
    e ∈ st.color_fetch ∨ e = (col, row) := by
  cases t with
  | none => exact Or.inl h
  | some tag =>
    cases tag with
    | FETCH_FAILED =>
      simp [pushTag] at h
      rcases h with h | h
      · exact Or.inl h
      · exact Or.inr h
    | NAME_UNAVAILABLE => exact Or.inl h
    | LOW_CONFIDENCE => exact Or.inl h

theorem pushTag_mem_noname (st : RunState) (col : Str) (row : Nat) (t : Option AuditTag)
    (e : Str × Nat) (h : e ∈ (pushTag st col row t).color_noname) :
    e ∈ st.color_noname ∨ e = (col, row) := by
  cases t with
  | none => exact Or.inl h
  | some tag =>
    cases tag with
    | FETCH_FAILED => exact Or.inl h
    | NAME_UNAVAILABLE =>
      simp [pushTag] at h
      rcases h with h | h
      · exact Or.inl h
      · exact Or.inr h
    | LOW_CONFIDENCE => exact Or.inl h

theorem pushTag_mem_low (st : RunState) (col : Str) (row : Nat) (t : Option AuditTag)
    (e : Str × Nat) (h : e ∈ (pushTag st col row t).color_low) :
    e ∈ st.color_low ∨ e = (col, row) := by
  cases t with
  | none => exact Or.inl h
  | some tag =>
    cases tag with
    | FETCH_FAILED => exact Or.inl h
    | NAME_UNAVAILABLE => exact Or.inl h
    | LOW_CONFIDENCE =>
      simp [pushTag] at h
      rcases h with h | h
      · exact Or.inl h
      · exact Or.inr h

/-- C8 corrected by counterexample: a record whose IJF cell holds the
non-empty text "notaurl" is selected as a target and processed (checked
becomes 1) with auditing enabled and a transport on which any audit fetch
would flag FETCH_FAILED, yet no audit outcome of any kind is produced. -/
theorem C8_counterexample :
    targets cfgC8 [[("John Smith").data]] [[("notaurl").data]] [[]] = [0] ∧
    (runMain cfgC8 fetchNone [[("John Smith").data]] [[("notaurl").data]] [[]]).checked = 1 ∧
    (runMain cfgC8 fetchNone [[("John Smith").data]] [[("notaurl").data]] [[]]).color_fetch = [] ∧
    (runMain cfgC8 fetchNone [[("John Smith").data]] [[("notaurl").data]] [[]]).color_noname = [] ∧
    (runMain cfgC8 fetchNone [[("John Smith").data]] [[("notaurl").data]] [[]]).color_low = [] := by
  decide

/-- C8 amended: the audit step runs exactly on records whose IJF cell
starts with the IJF judoka prefix (taking priority) or else whose
JudoInside cell starts with the JudoInside judoka prefix; a selected,
uncached URL is fetched and classified, appending exactly one flag unless
the outcome is OK; records matching neither prefix are left unaudited even
when the slot is non-empty. -/
theorem C8_audit_selection :
    (∀ (cfg : Config) (c1 c2 : Str), IJF_JUDOKA_STR.isPrefixOf c1 = true →
      auditSelect cfg c1 c2 = some (c1, cfg.ijfCol)) ∧
    (∀ (cfg : Config) (c1 c2 : Str), IJF_JUDOKA_STR.isPrefixOf c1 = false →
      ((JUDOINSIDE_BASE ++ ("/judoka/").data).isPrefixOf c2) = true →
      auditSelect cfg c1 c2 = some (c2, cfg.jiCol)) ∧
    (∀ (cfg : Config) (c1 c2 : Str), IJF_JUDOKA_STR.isPrefixOf c1 = false →
      ((JUDOINSIDE_BASE ++ ("/judoka/").data).isPrefixOf c2) = false →
      auditSelect cfg c1 c2 = none) ∧
    (∀ (cfg : Config) (fetch : Fetch) (qs : List Str) (row : Nat) (c1 c2 : Str)
      (st : RunState), auditSelect cfg c1 c2 = none →
      auditStep cfg fetch qs row c1 c2 st = st) ∧
    (∀ (cfg : Config) (fetch : Fetch) (qs : List Str) (row : Nat) (c1 c2 : Str)
      (st : RunState) (url col : Str),
      cfg.enableAudit = true → auditSelect cfg c1 c2 = some (url, col) → url ≠ [] →
      findCache st.cache url = none →
      flagCount (auditStep cfg fetch qs row c1 c2 st) =
        flagCount st + (match classifyAudit cfg.auditThreshold qs
            (fetch_profile_display_name fetch url).1
            (fetch_profile_display_name fetch url).2 with
          | none => 0 | some _ => 1)) := by
  refine ⟨?_, ?_, ?_, ?_, ?_⟩
  · intro cfg c1 c2 h1
    simp [auditSelect, h1]
  · intro cfg c1 c2 h1 h2
    simp [auditSelect, h1, h2]
  · intro cfg c1 c2 h1 h2
    simp [auditSelect, h1, h2]
  · intro cfg fetch qs row c1 c2 st hsel
    unfold auditStep
    split
    · rw [hsel]
    · rfl
  · intro cfg fetch qs row c1 c2 st url col hen hsel hurl hcache
    unfold auditStep
    rw [if_pos hen, hsel]
    dsimp only []
    rw [if_pos hurl, hcache]
    dsimp only []
    rw [pushTag_flagCount]
    have : flagCount { st with cache := st.cache ++ [(url, fetch_profile_display_name fetch url)] } =
        flagCount st := rfl
    rw [this]

/-- Witness for C8: the IJF-prefixed cell is selected for audit. -/
theorem C8_witness :
    auditSelect cfgC8 IJF_JUDOKA_STR (("x").data) = some (IJF_JUDOKA_STR, cfgC8.ijfCol) :=
  C8_audit_selection.1 cfgC8 IJF_JUDOKA_STR (("x").data) (by decide)

/-- C10: when both cells hold well-formed judoka profile URLs, the audit
step examines only the IJF cell (IJF priority) and any flag it appends is
for the IJF column; the JudoInside cell receives no audit flag. -/
theorem C10_ijf_audit_priority (cfg : Config) (fetch : Fetch) (qs : List Str) (row : Nat)
    (c1 c2 : Str) (st : RunState)
    (h1 : IJF_JUDOKA_STR.isPrefixOf c1 = true)
    (h2 : ((JUDOINSIDE_BASE ++ ("/judoka/").data).isPrefixOf c2) = true) :
    auditSelect cfg c1 c2 = some (c1, cfg.ijfCol) ∧
    (∀ e, e ∈ (auditStep cfg fetch qs row c1 c2 st).color_fetch →
      e ∈ st.color_fetch ∨ e = (cfg.ijfCol, row)) ∧
    (∀ e, e ∈ (auditStep cfg fetch qs row c1 c2 st).color_noname →
      e ∈ st.color_noname ∨ e = (cfg.ijfCol, row)) ∧
    (∀ e, e ∈ (auditStep cfg fetch qs row c1 c2 st).color_low →
      e ∈ st.color_low ∨ e = (cfg.ijfCol, row)) := by
  have hsel : auditSelect cfg c1 c2 = some (c1, cfg.ijfCol) := by
    simp [auditSelect, h1]
  refine ⟨hsel, ?_, ?_, ?_⟩ <;> intro e he
  · by_cases hen : cfg.enableAudit = true
    · rw [auditStep, if_pos hen, hsel] at he
      dsimp only [] at he
      by_cases hurl : c1 ≠ []
      · rw [if_pos hurl] at he
        cases hcache : findCache st.cache c1 with
        | some r =>
          rw [hcache] at he
          dsimp only [] at he
          rcases pushTag_mem_fetch _ _ _ _ _ he with h | h
          · exact Or.inl h
          · exact Or.inr h
        | none =>
          rw [hcache] at he
          dsimp only [] at he
          rcases pushTag_mem_fetch _ _ _ _ _ he with h | h
          · exact Or.inl h
          · exact Or.inr h
      · rw [if_neg hurl] at he
        exact Or.inl he
    · rw [auditStep, if_neg hen] at he
      exact Or.inl he
  · by_cases hen : cfg.enableAudit = true
    · rw [auditStep, if_pos hen, hsel] at he
      dsimp only [] at he
      by_cases hurl : c1 ≠ []
      · rw [if_pos hurl] at he
        cases hcache : findCache st.cache c1 with
        | some r =>
          rw [hcache] at he
          dsimp only [] at he
          rcases pushTag_mem_noname _ _ _ _ _ he with h | h
          · exact Or.inl h
          · exact Or.inr h
        | none =>
          rw [hcache] at he
          dsimp only [] at he
          rcases pushTag_mem_noname _ _ _ _ _ he with h | h
          · exact Or.inl h
          · exact Or.inr h
      · rw [if_neg hurl] at he
        exact Or.inl he
    · rw [auditStep, if_neg hen] at he
      exact Or.inl he
  · by_cases hen : cfg.enableAudit = true
    · rw [auditStep, if_pos hen, hsel] at he
      dsimp only [] at he
      by_cases hurl : c1 ≠ []
      · rw [if_pos hurl] at he
        cases hcache : findCache st.cache c1 with
        | some r =>
          rw [hcache] at he
          dsimp only [] at he
          rcases pushTag_mem_low _ _ _ _ _ he with h | h
          · exact Or.inl h
          · exact Or.inr h
        | none =>
          rw [hcache] at he
          dsimp only [] at he
          rcases pushTag_mem_low _ _ _ _ _ he with h | h
          · exact Or.inl h
          · exact Or.inr h
      · rw [if_neg hurl] at he
        exact Or.inl he
    · rw [auditStep, if_neg hen] at he
      exact Or.inl he

/-- Witness for C10 with both cells holding well-formed profile URLs. -/
theorem C10_witness :
    auditSelect cfgC8 (("https://www.ijf.org/judoka/7").data)
        (("https://judoinside.com/judoka/9").data) =
      some ((("https://www.ijf.org/judoka/7").data), cfgC8.ijfCol) :=
  (C10_ijf_audit_priority cfgC8 fetchNone [] 2 (("https://www.ijf.org/judoka/7").data)
    (("https://judoinside.com/judoka/9").data) initState (by decide) (by decide)).1

/-- C6 corrected by counterexample: the swapped query is dropped only on
exact (case-sensitive) equality with the primary; "Smith, smith" keeps
both orderings although they are identical case-insensitively. -/
theorem C6_counterexample :
    build_queries_from_name (("Smith, smith").data) =
      [("Smith smith").data, ("smith Smith").data] ∧
    pyLower (("smith Smith").data) = pyLower (("Smith smith").data) := by
  decide

/-- C6 amended: for comma-containing input the normalizer emits the
comma-free normalized primary and, when the first two comma segments are
both non-empty, the swapped "given surname" variant built from exactly
those two segments, skipped only when character-identical (case-sensitive)
to the primary; normalize("SMITH, John") = ["SMITH John", "John SMITH"]. -/
theorem C6_comma_normalizer :
    build_queries_from_name (("SMITH, John").data) =
      [("SMITH John").data, ("John SMITH").data] ∧
    ∀ raw : Str, build_queries_from_name raw = buildQueriesC6Spec raw := by
  refine ⟨by decide, ?_⟩
  intro raw
  by_cases hprim : normalize_spaces (replaceComma (normalize_spaces raw)) = []
  · rw [build_queries_eq_nil_of_primary_nil raw hprim]
    simp only [buildQueriesC6Spec]
    rw [if_pos hprim]
  · have hr : normalize_spaces raw ≠ [] := by
      intro h0
      apply hprim
      rw [h0]
      rfl
    simp only [build_queries_from_name, buildQueriesC6Spec]
    rw [if_neg hr, if_neg hprim]
    by_cases hcc : containsComma (normalize_spaces raw) = true
    · rw [if_pos hcc, if_pos hcc]
      cases hparts : (splitComma (normalize_spaces raw)).map normalize_spaces with
      | nil =>
        dsimp only []
        exact dedupKeep_single hprim
      | cons p0 tail =>
        cases tail with
        | nil =>
          dsimp only []
          exact dedupKeep_single hprim
        | cons p1 rest =>
          dsimp only []
          by_cases hp : p0 ≠ [] ∧ p1 ≠ []
          · rw [if_pos hp]
            have hp1mem : p1 ∈ (splitComma (normalize_spaces raw)).map normalize_spaces := by
              rw [hparts]
              simp
            rcases List.mem_map.mp hp1mem with ⟨seg, hseg, hp1eq⟩
            have hswne : normalize_spaces (p1 ++ ' ' :: p0) ≠ [] := by
              intro h0
              rw [normalize_eq_nil_iff] at h0
              have hp1ne : normalize_spaces seg ≠ [] := by
                rw [hp1eq]
                exact hp.2
              rcases exists_nonspace_of_normalize_ne_nil hp1ne with ⟨c, hc, hns⟩
              rw [hp1eq] at hc
              have := h0 c (List.mem_append.mpr (Or.inl hc))
              rw [this] at hns
              exact absurd hns (by simp)
            by_cases hsw : normalize_spaces (p1 ++ ' ' :: p0) =
                normalize_spaces (replaceComma (normalize_spaces raw))
            · rw [if_neg (by simp [hsw])]
              rw [if_neg (by
                intro hcontra
                exact hcontra.2.2 hsw)]
              exact dedupKeep_single hprim
            · rw [if_pos ⟨hswne, by simp [hsw]⟩]
              rw [if_pos ⟨hp.1, hp.2, hsw⟩]
              rw [List.singleton_append]
              exact dedupKeep_pair hprim hswne hsw
          · rw [if_neg hp]
            rw [if_neg (by
              intro hcontra
              exact hp ⟨hcontra.1, hcontra.2.1⟩)]
            exact dedupKeep_single hprim
    · rw [if_neg hcc, if_neg hcc]
      exact dedupKeep_single hprim
